import Mathlib

/-!
Verification development for the Docs-Assistant RAG demo.

The repository ships the frontend (`frontend/src/App.tsx`, `frontend/src/utils.ts`,
the MSW mock handlers in `frontend/src/test/handlers.ts`, and component tests)
together with the markdown corpus under `backend/docs/`.  The backend RAG
pipeline itself (Chunker, Retriever, Streaming Session Controller) is not part
of the shipped sources; where a property concerns those components we model
them from the specification text and say so in the doc comment.

All definitions are executable; machine floats of the sources are modelled as
rationals, JavaScript strings as Lean `String`/`List Char`.
-/

namespace DocsAssistant

/-! ## JavaScript string primitives used by `App.tsx` -/

/-- The whitespace characters recognised by JavaScript's `String.prototype.trim`
(the common subset: space, tab, LF, CR, vertical tab, form feed, NBSP). -/
def isJsWhitespace (c : Char) : Bool :=
  c = ' ' || c = '\t' || c = '\n' || c = '\r' ||
  c = Char.ofNat 11 || c = Char.ofNat 12 || c = Char.ofNat 160

/-- Model of `String.prototype.trimStart`. -/
def jsTrimStartL (l : List Char) : List Char := l.dropWhile isJsWhitespace

/-- Model of `String.prototype.trim` (drop whitespace on both ends). -/
def jsTrimL (l : List Char) : List Char :=
  ((l.dropWhile isJsWhitespace).reverse.dropWhile isJsWhitespace).reverse

/-- `String`-level wrapper for `jsTrimStartL`. -/
def jsTrimStart (s : String) : String := ⟨jsTrimStartL s.data⟩

/-- `String`-level wrapper for `jsTrimL`. -/
def jsTrim (s : String) : String := ⟨jsTrimL s.data⟩

/-! ## Data shapes of `App.tsx` -/

/-- `interface ChunkResult` from `App.tsx`: fields `doc_id`, `score`, `text`.
Scores (JS numbers) are modelled as rationals. -/
structure ChunkResult where
  doc_id : String
  score : ℚ
  text : String
deriving DecidableEq, Repr

/-- `interface QueryResponse` from `App.tsx`. -/
structure QueryResponse where
  answer : String
  sources : List String
  chunks : List ChunkResult
deriving DecidableEq, Repr

/-- `interface PersistedState` from `App.tsx`. -/
structure PersistedState where
  submittedQuery : Option String
  answer : Option String
  sources : List String
  chunks : List ChunkResult
deriving DecidableEq, Repr

/-- The React state of `App` that `handleAsk` reads or writes. -/
structure AppState where
  query : String
  submittedQuery : Option String
  answer : Option String
  sources : List String
  chunks : List ChunkResult
  loading : Bool
  error : Option String
  sourcesOpen : Bool
  chunksOpen : Bool
deriving DecidableEq, Repr

/-- The JSON body `{query, top_k}` that `handleAsk` POSTs to `/query`. -/
structure QueryRequest where
  query : String
  top_k : ℕ
deriving DecidableEq, Repr

/-- Default `top_k` sent by the client (`top_k: 5` in `handleAsk`). -/
def DEFAULT_TOP_K : ℕ := 5

/-- Maximum `top_k`; the spec's suggested bound 20. -/
def MAX_TOP_K : ℕ := 20

/-- The synchronous prefix of `handleAsk` in `App.tsx`: if the trimmed query is
empty (`!query.trim()` — the empty string is the only falsy string) it returns
without touching any state and without issuing a request; otherwise it clears
the input, enters the loading state, resets the result panels, and issues
`POST /query` with body `{query: currentQuery, top_k: 5}` where
`currentQuery = query.trim()`. -/
def handleAsk (st : AppState) : AppState × Option QueryRequest :=
  if jsTrim st.query = "" then (st, none)
  else
    ({ st with
        query := ""
        loading := true
        error := none
        submittedQuery := none
        answer := none
        sources := []
        sourcesOpen := false
        chunks := []
        chunksOpen := false },
     some { query := jsTrim st.query, top_k := DEFAULT_TOP_K })

/-- The Ask button's `disabled={loading || !query.trim()}` condition. -/
def askDisabled (st : AppState) : Bool :=
  st.loading || decide (jsTrim st.query = "")

/-! ## `loadPersistedState` from `App.tsx`

`sessionStorage` is modelled as the optional string stored under
`STORAGE_KEY`; `JSON.parse` followed by the implicit cast to `PersistedState`
is modelled as an arbitrary partial parse function (the theorems hold for
every such function), with a parse failure — an exception in JS, caught by the
surrounding `try` — modelled as `none`.  The result pairs the returned value
with the storage content after the call. -/
def loadPersistedState (parse : String → Option PersistedState)
    (navType : String) (stored : Option String) :
    Option PersistedState × Option String :=
  if navType = "reload" then (none, none)
  else
    match stored with
    | none => (none, stored)
    | some raw => if raw = "" then (none, stored) else (parse raw, stored)

end DocsAssistant

namespace DocsAssistant

/-! ## Theorems: query submission (C4, C5) and persisted state (C9) -/

/-- A concrete resting `App` state with a whitespace-only query. -/
def blankQueryState : AppState :=
  { query := "  ", submittedQuery := none, answer := none, sources := [],
    chunks := [], loading := false, error := none, sourcesOpen := false,
    chunksOpen := false }

/-- A concrete resting `App` state with an untrimmed non-empty query. -/
def askedQueryState : AppState :=
  { query := " hi ", submittedQuery := none, answer := none, sources := [],
    chunks := [], loading := false, error := none, sourcesOpen := false,
    chunksOpen := false }

/-- **C4**: a query that is empty after trimming is rejected before any
retrieval work: `handleAsk` returns with the state unchanged and no
`POST /query` request, and the Ask button is disabled for such input. -/
theorem emptyQuery_rejected (st : AppState) (h : jsTrim st.query = "") :
    handleAsk st = (st, none) ∧ askDisabled st = true := by
  constructor
  · simp [handleAsk, h]
  · simp [askDisabled, h]

/-- Witness for `emptyQuery_rejected` at the concrete whitespace-only input. -/
theorem emptyQuery_rejected_witness :
    jsTrim blankQueryState.query = "" ∧
      handleAsk blankQueryState = (blankQueryState, none) := by
  refine ⟨by decide, ?_⟩
  exact (emptyQuery_rejected _ (by decide)).1

/-- **C5**: every `POST /query` request issued by `handleAsk` carries
`top_k = 5` (within the bounds `1 ≤ top_k ≤ MAX_TOP_K`) and a `query` field
equal to the submitted text after trimming. -/
theorem request_shape (st st' : AppState) (req : QueryRequest)
    (h : handleAsk st = (st', some req)) :
    req.top_k = 5 ∧ 1 ≤ req.top_k ∧ req.top_k ≤ MAX_TOP_K ∧
      req.query = jsTrim st.query := by
  by_cases hq : jsTrim st.query = ""
  · simp [handleAsk, hq] at h
  · simp [handleAsk, hq] at h
    obtain ⟨-, hreq⟩ := h
    subst hreq
    refine ⟨rfl, ?_, ?_, rfl⟩ <;> norm_num [DEFAULT_TOP_K, MAX_TOP_K]

/-- Witness for `request_shape` at a concrete non-empty query. -/
theorem request_shape_witness :
    ∃ st' req, handleAsk askedQueryState = (st', some req) ∧
      (req.top_k = 5 ∧ 1 ≤ req.top_k ∧ req.top_k ≤ MAX_TOP_K ∧
        req.query = jsTrim askedQueryState.query) := by
  refine ⟨_, _, rfl, request_shape _ _ _ rfl⟩

/-- **C9**: `loadPersistedState` never throws (it is a total function of the
navigation type and storage content, for every parse function): on a reload it
removes the persisted entry and returns `null`; with no stored entry, an empty
entry, or an unparsable entry it returns `null`; and a non-null result can
only arise from a stored entry that parses successfully. -/
theorem loadPersistedState_safe (parse : String → Option PersistedState)
    (navType : String) (stored : Option String) :
    (navType = "reload" →
        loadPersistedState parse navType stored = (none, none)) ∧
    (navType ≠ "reload" → stored = none →
        (loadPersistedState parse navType stored).1 = none) ∧
    (∀ raw, navType ≠ "reload" → stored = some raw → parse raw = none →
        (loadPersistedState parse navType stored).1 = none) ∧
    (∀ v, (loadPersistedState parse navType stored).1 = some v →
        ∃ raw, stored = some raw ∧ parse raw = some v) := by
  refine ⟨?_, ?_, ?_, ?_⟩
  · intro h; simp [loadPersistedState, h]
  · intro h h2; subst h2; simp [loadPersistedState, h]
  · intro raw h h2 h3
    subst h2
    by_cases hr : raw = "" <;> simp [loadPersistedState, h, hr, h3]
  · intro v hv
    unfold loadPersistedState at hv
    by_cases h : navType = "reload"
    · simp [h] at hv
    · simp [h] at hv
      cases stored with
      | none => simp at hv
      | some raw =>
          by_cases hr : raw = "" <;> simp [hr] at hv
          exact ⟨raw, rfl, hv⟩

/-- Witness for `loadPersistedState_safe`: instantiate with a parse function
that rejects everything, a non-reload navigation, and an unparsable entry. -/
theorem loadPersistedState_safe_witness :
    ("navigate" : String) ≠ "reload" ∧
      (loadPersistedState (fun _ => none) "navigate" (some "not json")).1
        = none := by
  refine ⟨by decide, ?_⟩
  exact (loadPersistedState_safe (fun _ => none) "navigate"
    (some "not json")).2.2.1 "not json" (by decide) rfl rfl

/-! ## Decimal numerals (for chunk identifiers)

Chunk ids render the sequence index in decimal (`"guide.md::0"`).  We use a
fuel-based digit expansion so that the kernel can evaluate it on concrete
inputs. -/

/-- Little-endian decimal digits, with explicit fuel (`fuel ≥ n` suffices). -/
def natDigitsAux : ℕ → ℕ → List ℕ
  | 0, _ => []
  | _ + 1, 0 => []
  | fuel + 1, n + 1 => ((n + 1) % 10) :: natDigitsAux fuel ((n + 1) / 10)

/-- Little-endian decimal digits of `n` (empty for `0`). -/
def natDigits (n : ℕ) : List ℕ := natDigitsAux n n

theorem natDigitsAux_zero (f : ℕ) : natDigitsAux f 0 = [] := by
  cases f <;> rfl

theorem div10_lt (n : ℕ) : (n + 1) / 10 < n + 1 :=
  Nat.div_lt_self (Nat.succ_pos n) (by norm_num)

theorem natDigitsAux_fuel : ∀ n f₁ f₂, n ≤ f₁ → n ≤ f₂ →
    natDigitsAux f₁ n = natDigitsAux f₂ n := by
  intro n
  induction n using Nat.strong_induction_on with
  | _ n ih =>
      match n with
      | 0 =>
          intro f₁ f₂ _ _
          rw [natDigitsAux_zero, natDigitsAux_zero]
      | n + 1 =>
          intro f₁ f₂ h1 h2
          obtain ⟨g₁, rfl⟩ : ∃ g, f₁ = g + 1 := ⟨f₁ - 1, by omega⟩
          obtain ⟨g₂, rfl⟩ : ∃ g, f₂ = g + 1 := ⟨f₂ - 1, by omega⟩
          show ((n + 1) % 10) :: natDigitsAux g₁ ((n + 1) / 10) =
            ((n + 1) % 10) :: natDigitsAux g₂ ((n + 1) / 10)
          have hm := div10_lt n
          rw [ih ((n + 1) / 10) hm g₁ g₂ (by omega) (by omega)]

theorem natDigits_succ (n : ℕ) :
    natDigits (n + 1) = ((n + 1) % 10) :: natDigits ((n + 1) / 10) := by
  show ((n + 1) % 10) :: natDigitsAux n ((n + 1) / 10) = _
  have hm := div10_lt n
  rw [natDigitsAux_fuel ((n + 1) / 10) n ((n + 1) / 10) (by omega) le_rfl]
  rfl

theorem ofDigits_natDigits (n : ℕ) : Nat.ofDigits 10 (natDigits n) = n := by
  induction n using Nat.strong_induction_on with
  | _ n ih =>
      match n with
      | 0 => rfl
      | n + 1 =>
          rw [natDigits_succ, Nat.ofDigits_cons,
            ih ((n + 1) / 10) (div10_lt n)]
          omega

theorem natDigits_lt (n : ℕ) : ∀ d ∈ natDigits n, d < 10 := by
  induction n using Nat.strong_induction_on with
  | _ n ih =>
      match n with
      | 0 => intro d hd; simp [natDigits, natDigitsAux] at hd
      | n + 1 =>
          rw [natDigits_succ]
          intro d hd
          rcases List.mem_cons.mp hd with h | h
          · omega
          · exact ih ((n + 1) / 10) (div10_lt n) d h

/-- The ASCII digit character for a decimal digit. -/
def natDigitChar (d : ℕ) : Char := Char.ofNat (48 + d)

theorem natDigitChar_toNat (d : ℕ) (h : d < 10) :
    (natDigitChar d).toNat = 48 + d := by
  interval_cases d <;> rfl

/-- Big-endian decimal rendering of `n` as characters (`0 ↦ "0"`). -/
def natChars (n : ℕ) : List Char :=
  if n = 0 then ['0'] else ((natDigits n).map natDigitChar).reverse

/-- Inverse of `natChars` on digit strings. -/
def parseDigits (cs : List Char) : ℕ :=
  Nat.ofDigits 10 ((cs.map (fun c => c.toNat - 48)).reverse)

theorem map_unDigit {l : List ℕ} (hl : ∀ d ∈ l, d < 10) :
    l.map ((fun c => c.toNat - 48) ∘ natDigitChar) = l := by
  induction l with
  | nil => rfl
  | cons d t ih =>
      rw [List.map_cons, ih (fun x hx => hl x (List.mem_cons_of_mem d hx))]
      have hd := hl d (List.mem_cons_self d t)
      simp only [Function.comp_apply, natDigitChar_toNat d hd]
      congr 1
      omega

theorem parseDigits_natChars (n : ℕ) : parseDigits (natChars n) = n := by
  by_cases h : n = 0
  · subst h; rfl
  · unfold parseDigits natChars
    rw [if_neg h, List.map_reverse, List.reverse_reverse, List.map_map,
      map_unDigit (natDigits_lt n), ofDigits_natDigits]

theorem natChars_inj {m n : ℕ} (h : natChars m = natChars n) : m = n := by
  have := congrArg parseDigits h
  rwa [parseDigits_natChars, parseDigits_natChars] at this

theorem natChars_no_colon (n : ℕ) : ':' ∉ natChars n := by
  intro hmem
  unfold natChars at hmem
  by_cases h : n = 0
  · rw [if_pos h] at hmem; simp at hmem
  · rw [if_neg h, List.mem_reverse, List.mem_map] at hmem
    obtain ⟨d, hd, heq⟩ := hmem
    have hlt := natDigits_lt n d hd
    have := congrArg Char.toNat heq
    rw [natDigitChar_toNat d hlt] at this
    have : (':').toNat = 58 := rfl
    omega

/-! ## Chunk identifiers

Modelled from the spec: `Chunk.id = {document_id}::{sequence_index}` — the
document id, the literal separator `::`, and the decimal sequence index. -/

/-- Character-level chunk id: `docId ++ "::" ++ decimal index`. -/
def chunkIdL (docId : List Char) (i : ℕ) : List Char :=
  docId ++ ':' :: ':' :: natChars i

/-- `String`-level chunk id. -/
def chunkId (docId : String) (i : ℕ) : String := ⟨chunkIdL docId.data i⟩

/-- Cancellation at the first colon marker: if neither prefix contains a
colon, the decomposition around `':'` is unique. -/
theorem append_colon_inj : ∀ {a₁ a₂ b₁ b₂ : List Char}, ':' ∉ a₁ → ':' ∉ a₂ →
    a₁ ++ ':' :: b₁ = a₂ ++ ':' :: b₂ → a₁ = a₂ ∧ b₁ = b₂ := by
  intro a₁
  induction a₁ with
  | nil =>
      intro a₂ b₁ b₂ _ h2 heq
      cases a₂ with
      | nil => simpa using heq
      | cons c t =>
          exfalso
          have : c = ':' := (List.cons.injEq _ _ _ _ ▸ heq.symm).1
          exact h2 (this ▸ List.mem_cons_self c t)
  | cons c t ih =>
      intro a₂ b₁ b₂ h1 h2 heq
      cases a₂ with
      | nil =>
          exfalso
          have : c = ':' := (List.cons.injEq _ _ _ _ ▸ heq).1
          exact h1 (this ▸ List.mem_cons_self c t)
      | cons c₂ t₂ =>
          have hc : c = c₂ ∧ t ++ ':' :: b₁ = t₂ ++ ':' :: b₂ := by
            simpa using heq
          have ht := ih (fun hm => h1 (List.mem_cons_of_mem c hm))
            (fun hm => h2 (List.mem_cons_of_mem c₂ hm)) hc.2
          exact ⟨by rw [hc.1, ht.1], ht.2⟩

/-- Chunk ids are injective in the document id and the sequence index, for
colon-free document ids. -/
theorem chunkIdL_inj {d₁ d₂ : List Char} {i₁ i₂ : ℕ}
    (h₁ : ':' ∉ d₁) (h₂ : ':' ∉ d₂)
    (heq : chunkIdL d₁ i₁ = chunkIdL d₂ i₂) : d₁ = d₂ ∧ i₁ = i₂ := by
  obtain ⟨hd, hrest⟩ := append_colon_inj h₁ h₂ heq
  refine ⟨hd, natChars_inj ?_⟩
  simpa using hrest

/-! ## Chunker

Modelled from the spec (§4.1): `split(document)` is deterministic and pure;
fixed target size with fixed overlap; boundaries prefer breaking on whitespace
within a tolerance window near the target size, falling back to a hard cut; a
document shorter than the target yields one chunk; an empty document yields
zero chunks.  Recursion is fuel-based (fuel = text length) so the function is
structural and kernel-evaluable; each step advances by at least one character,
so the fuel is never exhausted before the text is. -/

/-- `Document` from the spec's data model (`title`/`path` are the metadata). -/
structure Document where
  id : String
  text : String
  title : String
  path : String
deriving DecidableEq, Repr

/-- `Chunk` from the spec's data model. -/
structure Chunk where
  id : String
  document_id : String
  text : String
  start_offset : ℕ
  end_offset : ℕ
deriving DecidableEq, Repr

/-- Chunker configuration: target size, overlap window, boundary tolerance. -/
structure ChunkCfg where
  size : ℕ
  overlap : ℕ
  tol : ℕ
deriving DecidableEq, Repr

/-- The cut position for a window `w` longer than the target size: the last
whitespace break point within `[size − tol, size]` if one exists, otherwise a
hard cut at the target size (at least 1, so progress is always made). -/
def softCut (cfg : ChunkCfg) (w : List Char) : ℕ :=
  let cands := (List.range (cfg.size + 1)).filter
    (fun j => decide (cfg.size - cfg.tol ≤ j) && decide (1 ≤ j) &&
      isJsWhitespace (w.getD (j - 1) 'a'))
  match cands.max? with
  | some j => j
  | none => max 1 cfg.size

/-- Worker for `split`: `rem` is the unconsumed text, `p` its offset in the
document, `idx` the next chunk's sequence index. -/
def splitAux (cfg : ChunkCfg) (docId : List Char) :
    ℕ → List Char → ℕ → ℕ → List Chunk
  | 0, _, _, _ => []
  | _ + 1, [], _, _ => []
  | fuel + 1, c :: t, p, idx =>
      if (c :: t).length ≤ cfg.size then
        [⟨⟨chunkIdL docId idx⟩, ⟨docId⟩, ⟨c :: t⟩, p, p + (c :: t).length⟩]
      else
        let cut := softCut cfg (c :: t)
        let adv := max 1 (cut - cfg.overlap)
        ⟨⟨chunkIdL docId idx⟩, ⟨docId⟩, ⟨(c :: t).take cut⟩, p, p + cut⟩ ::
          splitAux cfg docId fuel ((c :: t).drop adv) (p + adv) (idx + 1)

/-- `Chunker.split` from the spec: split a document's text into chunks with
ids `{document_id}::{sequence_index}`. -/
def split (cfg : ChunkCfg) (d : Document) : List Chunk :=
  splitAux cfg d.id.data d.text.data.length d.text.data 0 0

/-- All chunk ids produced by ingesting a corpus. -/
def allChunkIds (cfg : ChunkCfg) (corpus : List Document) : List String :=
  corpus.flatMap (fun d => (split cfg d).map Chunk.id)

/-- The expected id sequence: `n` consecutive ids starting at index `start`. -/
def idsFrom (docId : List Char) (start n : ℕ) : List String :=
  (List.range n).map (fun k => ⟨chunkIdL docId (start + k)⟩)

theorem idsFrom_succ (docId : List Char) (start n : ℕ) :
    idsFrom docId start (n + 1) =
      String.mk (chunkIdL docId start) :: idsFrom docId (start + 1) n := by
  unfold idsFrom
  rw [List.range_succ_eq_map, List.map_cons, List.map_map]
  have h2 : ∀ k ∈ List.range n,
      ((fun k => (⟨chunkIdL docId (start + k)⟩ : String)) ∘ Nat.succ) k
        = (fun k => (⟨chunkIdL docId (start + 1 + k)⟩ : String)) k := by
    intro k _
    simp only [Function.comp_apply]
    have h : start + Nat.succ k = start + 1 + k := by omega
    rw [h]
  rw [List.map_congr_left h2]
  simp

/-- The ids emitted by `splitAux` are exactly the consecutive ids from `idx`. -/
theorem splitAux_ids (cfg : ChunkCfg) (docId : List Char) :
    ∀ fuel rem p idx, (splitAux cfg docId fuel rem p idx).map Chunk.id =
      idsFrom docId idx (splitAux cfg docId fuel rem p idx).length := by
  intro fuel
  induction fuel with
  | zero => intro rem p idx; rfl
  | succ f ih =>
      intro rem p idx
      cases rem with
      | nil => rfl
      | cons c t =>
          show (splitAux cfg docId (f + 1) (c :: t) p idx).map Chunk.id = _
          rw [splitAux]
          by_cases h : (c :: t).length ≤ cfg.size

          · rw [if_pos h]
            rfl
          · rw [if_neg h]
            simp only [List.map_cons, List.length_cons]
            rw [ih, idsFrom_succ]

/-- The document back-reference recorded on every chunk of `splitAux`. -/
theorem splitAux_docRef (cfg : ChunkCfg) (docId : List Char) :
    ∀ fuel rem p idx, ∀ ch ∈ splitAux cfg docId fuel rem p idx,
      ch.document_id = ⟨docId⟩ := by
  intro fuel
  induction fuel with
  | zero => intro rem p idx ch hch; simp [splitAux] at hch
  | succ f ih =>
      intro rem p idx ch hch
      cases rem with
      | nil => simp [splitAux] at hch
      | cons c t =>
          rw [splitAux] at hch
          by_cases h : (c :: t).length ≤ cfg.size
          · rw [if_pos h] at hch
            simp at hch
            rw [hch]
          · rw [if_neg h] at hch
            rcases List.mem_cons.mp hch with h1 | h1
            · rw [h1]
            · exact ih _ _ _ ch h1

theorem idsFrom_nodup (docId : List Char) (hfree : ':' ∉ docId)
    (start n : ℕ) : (idsFrom docId start n).Nodup := by
  apply List.Nodup.map_on
  · intro x _ y _ hxy
    have hdata : chunkIdL docId (start + x) = chunkIdL docId (start + y) :=
      congrArg String.data hxy
    have := (chunkIdL_inj hfree hfree hdata).2
    omega
  · exact List.nodup_range n

theorem mem_idsFrom {docId : List Char} {start n : ℕ} {s : String}
    (h : s ∈ idsFrom docId start n) : ∃ k, s = String.mk (chunkIdL docId k) := by
  unfold idsFrom at h
  rw [List.mem_map] at h
  obtain ⟨k, _, hk⟩ := h
  exact ⟨start + k, hk.symm⟩

/-- A small concrete chunker configuration for witnesses. -/
def demoCfg : ChunkCfg := ⟨8, 2, 3⟩

/-- A small concrete two-document corpus for witnesses. -/
def demoCorpus : List Document :=
  [⟨"a.md", "hello world, this is a doc", "A", "docs/a.md"⟩,
   ⟨"b.md", "tiny", "B", "docs/b.md"⟩]

/-- **C6**: every chunk id has the form `{document_id}::{sequence_index}`
(consecutive sequence indices starting at 0), and over a corpus whose
document ids are distinct and colon-free the chunk ids are unique across the
whole index.  (Determinism of the ids is covered by `split_pure`.) -/
theorem chunkIds_formatted_unique (cfg : ChunkCfg) (corpus : List Document)
    (hfree : ∀ d ∈ corpus, ':' ∉ d.id.data)
    (hids : (corpus.map Document.id).Nodup) :
    (∀ d ∈ corpus, (split cfg d).map Chunk.id =
        idsFrom d.id.data 0 (split cfg d).length) ∧
    (allChunkIds cfg corpus).Nodup := by
  have hdoc : ∀ d : Document, (split cfg d).map Chunk.id =
      idsFrom d.id.data 0 (split cfg d).length := by
    intro d
    exact splitAux_ids cfg d.id.data d.text.data.length d.text.data 0 0
  refine ⟨fun d _ => hdoc d, ?_⟩
  rw [allChunkIds, List.nodup_flatMap]
  constructor
  · intro d hd
    rw [hdoc d]
    exact idsFrom_nodup d.id.data (hfree d hd) 0 _
  · have hne : corpus.Pairwise (fun a b => a.id ≠ b.id) :=
      List.pairwise_map.mp hids
    refine List.Pairwise.imp_of_mem ?_ hne
    intro a b ha hb hab
    intro s hs1 hs2
    simp only [] at hs1 hs2
    rw [hdoc a] at hs1
    rw [hdoc b] at hs2
    obtain ⟨k₁, hk₁⟩ := mem_idsFrom hs1
    obtain ⟨k₂, hk₂⟩ := mem_idsFrom hs2
    have hdata : chunkIdL a.id.data k₁ = chunkIdL b.id.data k₂ :=
      congrArg String.data (hk₁.symm.trans hk₂)
    have heq := (chunkIdL_inj (hfree a ha) (hfree b hb) hdata).1
    exact hab (String.ext heq)

/-- Witness for `chunkIds_formatted_unique` on the concrete demo corpus. -/
theorem chunkIds_formatted_unique_witness :
    (∀ d ∈ demoCorpus, ':' ∉ d.id.data) ∧
      (demoCorpus.map Document.id).Nodup ∧
      (allChunkIds demoCfg demoCorpus).Nodup := by
  refine ⟨by decide, by decide, ?_⟩
  exact (chunkIds_formatted_unique demoCfg demoCorpus (by decide) (by decide)).2

/-- **C7**: `Chunker.split` is deterministic and pure — it depends only on the
document's id and text, so two runs on the same input (regardless of the
metadata fields) produce identical chunks: identical ids, identical
boundaries (offsets), identical text. -/
theorem split_pure (cfg : ChunkCfg) (d₁ d₂ : Document)
    (hid : d₁.id = d₂.id) (htext : d₁.text = d₂.text) :
    split cfg d₁ = split cfg d₂ ∧
    (split cfg d₁).map Chunk.id = (split cfg d₂).map Chunk.id ∧
    (split cfg d₁).map (fun c => (c.start_offset, c.end_offset)) =
      (split cfg d₂).map (fun c => (c.start_offset, c.end_offset)) ∧
    (split cfg d₁).map Chunk.text = (split cfg d₂).map Chunk.text := by
  have h : split cfg d₁ = split cfg d₂ := by unfold split; rw [hid, htext]
  exact ⟨h, by rw [h], by rw [h], by rw [h]⟩

/-- Witness for `split_pure`: same id and text, different metadata. -/
theorem split_pure_witness :
    split demoCfg ⟨"a.md", "hello world, this is a doc", "A", "docs/a.md"⟩ =
      split demoCfg ⟨"a.md", "hello world, this is a doc", "other", "p"⟩ :=
  (split_pure demoCfg _ _ rfl rfl).1

/-! ## The mock `POST /query` response (`frontend/src/test/handlers.ts`) -/

/-- A JSON scalar as it appears in the mock payloads. -/
inductive JVal where
  | str (s : String)
  | num (q : ℚ)
deriving DecidableEq, Repr

/-- The `chunks` array of `queryResponse` in `handlers.ts`, as JSON objects
(association lists preserving the literal's key order and values). -/
def queryResponseChunksJson : List (List (String × JVal)) :=
  [[("doc_id", .str "guide.md::0"), ("score", .num (95/100)),
    ("text", .str "Chunk text from guide")],
   [("doc_id", .str "faq.md::1"), ("score", .num (88/100)),
    ("text", .str "Chunk text from faq")]]

/-- The same `chunks` array as typed `ChunkResult` values. -/
def queryResponseChunks : List ChunkResult :=
  [⟨"guide.md::0", 95/100, "Chunk text from guide"⟩,
   ⟨"faq.md::1", 88/100, "Chunk text from faq"⟩]

/-- The full `queryResponse` mock from `handlers.ts`. -/
def queryResponseMock : QueryResponse :=
  ⟨"The answer is **42**.", ["guide.md", "faq.md"], queryResponseChunks⟩

/-- **C3, counterexample**: the elements of the `chunks` array in the
`POST /query` response do *not* carry a `chunk_id` field — the key set of
every chunk object is `doc_id`, `score`, `text`, so the claim's field list is
false at this concrete response. -/
theorem chunkFields_counterexample :
    queryResponseChunksJson.map (fun o => o.map Prod.fst) =
        [["doc_id", "score", "text"], ["doc_id", "score", "text"]] ∧
      "chunk_id" ∉ ["doc_id", "score", "text"] := by decide

/-- **C3, amended**: every element of the `chunks` array carries exactly the
fields `doc_id`, `score`, and `text`, where `doc_id` holds the chunk
identifier of the form `{document_id}::{sequence_index}`. -/
theorem chunkFields_amended :
    queryResponseChunksJson.map (fun o => o.map Prod.fst) =
        [["doc_id", "score", "text"], ["doc_id", "score", "text"]] ∧
      queryResponseChunks.map ChunkResult.doc_id =
        [chunkId "guide.md" 0, chunkId "faq.md" 1] := by decide

/-! ## Retriever

Modelled from the spec (§4.5, §3): the Retriever embeds the query, searches
the Vector Index for the `top_k` most similar chunks, and drops results below
the minimum similarity threshold.  Similarity is normalised to `[0,1]` as
`1 / (1 + squared distance)` (the spec leaves the normalisation open but
requires one consistent normalisation into `[0,1]`).  Ranking is by an
insertion sort that is stable on ties (ties keep insertion order, §3). -/

/-- The persisted unit of the Vector Index: chunk id, embedding, text. -/
structure IndexedChunk where
  chunk_id : String
  embedding : List ℚ
  text : String
deriving DecidableEq, Repr

/-- `RetrievalResult` from the spec's data model. -/
structure RetrievalResult where
  chunk_id : String
  score : ℚ
  text : String
deriving DecidableEq, Repr

/-- Squared euclidean distance between two embeddings. -/
def sqDist (u v : List ℚ) : ℚ := (List.zipWith (fun a b => (a - b) ^ 2) u v).sum

/-- Similarity normalised into `(0, 1]`. -/
def similarity (u v : List ℚ) : ℚ := 1 / (1 + sqDist u v)

theorem sqDist_nonneg (u : List ℚ) : ∀ v, 0 ≤ sqDist u v := by
  induction u with
  | nil => intro v; simp [sqDist]
  | cons a t ih =>
      intro v
      cases v with
      | nil => simp [sqDist]
      | cons b tv =>
          have h := ih tv
          unfold sqDist at h ⊢
          rw [List.zipWith_cons_cons, List.sum_cons]
          nlinarith [sq_nonneg (a - b)]

theorem similarity_mem_unit (u v : List ℚ) :
    0 ≤ similarity u v ∧ similarity u v ≤ 1 := by
  have hd := sqDist_nonneg u v
  have hpos : (0 : ℚ) < 1 + sqDist u v := by linarith
  constructor
  · exact le_of_lt (div_pos one_pos hpos)
  · rw [similarity, div_le_one hpos]
    linarith

/-- Score a single indexed chunk against the query embedding. -/
def mkResult (qEmb : List ℚ) (c : IndexedChunk) : RetrievalResult :=
  ⟨c.chunk_id, similarity qEmb c.embedding, c.text⟩

/-- Insert into a descending-sorted list, after any equal scores (stable). -/
def insertDesc (r : RetrievalResult) : List RetrievalResult →
    List RetrievalResult
  | [] => [r]
  | x :: xs => if x.score < r.score then r :: x :: xs else x :: insertDesc r xs

/-- Insertion sort by descending score. -/
def sortDesc : List RetrievalResult → List RetrievalResult
  | [] => []
  | x :: xs => insertDesc x (sortDesc xs)

theorem mem_insertDesc {r y : RetrievalResult} :
    ∀ {l}, y ∈ insertDesc r l → y = r ∨ y ∈ l := by
  intro l
  induction l with
  | nil => intro h; simpa [insertDesc] using h
  | cons x xs ih =>
      intro h
      unfold insertDesc at h
      by_cases hc : x.score < r.score
      · rw [if_pos hc] at h
        rcases List.mem_cons.mp h with h1 | h1
        · exact Or.inl h1
        · exact Or.inr h1
      · rw [if_neg hc] at h
        rcases List.mem_cons.mp h with h1 | h1
        · exact Or.inr (h1 ▸ List.mem_cons_self x xs)
        · rcases ih h1 with h2 | h2
          · exact Or.inl h2
          · exact Or.inr (List.mem_cons_of_mem x h2)

theorem mem_sortDesc {y : RetrievalResult} :
    ∀ {l}, y ∈ sortDesc l → y ∈ l := by
  intro l
  induction l with
  | nil => intro h; simp [sortDesc] at h
  | cons x xs ih =>
      intro h
      rcases mem_insertDesc h with h1 | h1
      · exact h1 ▸ List.mem_cons_self x xs
      · exact List.mem_cons_of_mem x (ih h1)

/-- Descending order on scores. -/
def ScoreSorted (l : List RetrievalResult) : Prop :=
  l.Pairwise (fun a b => b.score ≤ a.score)

theorem insertDesc_sorted {r : RetrievalResult} :
    ∀ {l}, ScoreSorted l → ScoreSorted (insertDesc r l) := by
  intro l
  induction l with
  | nil => intro _; simp [insertDesc, ScoreSorted]
  | cons x xs ih =>
      intro hs
      have hx := (List.pairwise_cons.mp hs).1
      have hxs := (List.pairwise_cons.mp hs).2
      unfold insertDesc
      by_cases hc : x.score < r.score
      · rw [if_pos hc]
        refine List.pairwise_cons.mpr ⟨?_, hs⟩
        intro z hz
        rcases List.mem_cons.mp hz with h1 | h1
        · rw [h1]; linarith
        · have := hx z h1; linarith
      · rw [if_neg hc]
        refine List.pairwise_cons.mpr ⟨?_, ih hxs⟩
        intro z hz
        rcases mem_insertDesc hz with h1 | h1
        · rw [h1]; linarith
        · exact hx z h1

theorem sortDesc_sorted : ∀ l, ScoreSorted (sortDesc l) := by
  intro l
  induction l with
  | nil => simp [sortDesc, ScoreSorted]
  | cons x xs ih => exact insertDesc_sorted ih

/-- `retrieve` modelled from the spec (§4.5): validate `top_k ∈ [1, MAX_TOP_K]`
(a `ValidationError` otherwise), score every indexed chunk against the query
embedding, rank by descending similarity, keep at most `top_k`, then drop
results below the minimum similarity threshold. -/
def retrieve (index : List IndexedChunk) (qEmb : List ℚ) (top_k : ℕ)
    (minScore : ℚ) : Except String (List RetrievalResult) :=
  if top_k < 1 ∨ MAX_TOP_K < top_k then .error "ValidationError"
  else .ok (((sortDesc (index.map (mkResult qEmb))).take top_k).filter
    (fun r => minScore ≤ r.score))

/-- **C2**: for a fixed corpus and query, `retrieve` returns results sorted by
descending score, at most `top_k` of them, every score in `[0, 1]`. -/
theorem retrieve_ranking (index : List IndexedChunk) (qEmb : List ℚ)
    (top_k : ℕ) (minScore : ℚ) (rs : List RetrievalResult)
    (h : retrieve index qEmb top_k minScore = .ok rs) :
    rs.Pairwise (fun a b => b.score ≤ a.score) ∧ rs.length ≤ top_k ∧
      ∀ r ∈ rs, 0 ≤ r.score ∧ r.score ≤ 1 := by
  unfold retrieve at h
  by_cases hv : top_k < 1 ∨ MAX_TOP_K < top_k
  · rw [if_pos hv] at h; cases h
  · rw [if_neg hv] at h
    have hrs : rs = ((sortDesc (index.map (mkResult qEmb))).take top_k).filter
        (fun r => minScore ≤ r.score) := by
      cases h; rfl
    subst hrs
    refine ⟨?_, ?_, ?_⟩
    · exact List.Pairwise.sublist
        ((List.filter_sublist _).trans (List.take_sublist _ _))
        (sortDesc_sorted _)
    · calc (((sortDesc (index.map (mkResult qEmb))).take top_k).filter
            (fun r => minScore ≤ r.score)).length
          ≤ ((sortDesc (index.map (mkResult qEmb))).take top_k).length :=
            List.length_filter_le _ _
        _ ≤ top_k := List.length_take_le _ _
    · intro r hr
      have hr1 : r ∈ (sortDesc (index.map (mkResult qEmb))).take top_k :=
        List.mem_of_mem_filter hr
      have hr2 : r ∈ sortDesc (index.map (mkResult qEmb)) :=
        List.mem_of_mem_take hr1
      have hr3 : r ∈ index.map (mkResult qEmb) := mem_sortDesc hr2
      obtain ⟨c, _, hc⟩ := List.mem_map.mp hr3
      have : r.score = similarity qEmb c.embedding := by rw [← hc]; rfl
      rw [this]
      exact similarity_mem_unit qEmb c.embedding

/-- A small concrete index for the retrieval witness. -/
def demoIndex : List IndexedChunk :=
  [⟨"a.md::0", [1, 0], "alpha"⟩, ⟨"a.md::1", [0, 1], "beta"⟩,
   ⟨"b.md::0", [1, 1], "gamma"⟩]

/-- Witness for `retrieve_ranking` on the concrete demo index. -/
theorem retrieve_ranking_witness :
    ∃ rs, retrieve demoIndex [1, 0] 2 (1/10) = .ok rs ∧
      (rs.Pairwise (fun a b => b.score ≤ a.score) ∧ rs.length ≤ 2 ∧
        ∀ r ∈ rs, 0 ≤ r.score ∧ r.score ≤ 1) :=
  ⟨_, rfl, retrieve_ranking demoIndex [1, 0] 2 (1/10) _ rfl⟩

/-! ## Stream events

`StreamEvent` is the tagged variant of §3; the Streaming Session Controller
of §4.8 is modelled from the spec (the repository ships only the mock SSE
stream `makeSseStream` of `handlers.ts`, embedded below as the list of events
it enqueues). -/

/-- The tagged event variant `{metadata, token, done, error}`. -/
inductive StreamEvent where
  | metadata (sources : List String) (chunks : List ChunkResult)
  | token (text : String)
  | done
  | error (message : String)
deriving DecidableEq, Repr

/-- Terminal events: `done` or `error`. -/
def isTerminal : StreamEvent → Bool
  | .done => true
  | .error _ => true
  | _ => false

/-- The event sequence enqueued by `makeSseStream` in `handlers.ts`:
one `metadata` event, one `token` event carrying the full answer, `done`. -/
def makeSseStream : List StreamEvent :=
  [.metadata queryResponseMock.sources queryResponseMock.chunks,
   .token queryResponseMock.answer, .done]

/-- Modelled from the spec (§4.8): the event sequence of one query session.
`retrievalOk` selects the `RETRIEVING`-stage outcome; on success one
`metadata` event is emitted and the generation fragments follow as `token`
events, ending in `done`, or — when generation fails after `n` fragments
(`midFail = some n`) — in one `error` event.  On retrieval failure the single
event `error` is emitted and no `metadata` event at all. -/
def sessionEvents (retrievalOk : Bool) (sources : List String)
    (chunks : List ChunkResult) (fragments : List String)
    (midFail : Option ℕ) (errMsg : String) : List StreamEvent :=
  if retrievalOk then
    .metadata sources chunks ::
      (match midFail with
       | none => fragments.map .token ++ [.done]
       | some n => (fragments.take n).map .token ++ [.error errMsg])
  else [.error errMsg]

/-- The checker for the grammar `metadata, token*, (done|error)`. -/
def tokensThenTerminal : List StreamEvent → Bool
  | [.done] => true
  | [.error _] => true
  | .token _ :: rest => tokensThenTerminal rest
  | _ => false

/-- A sequence matches `metadata, token*, (done|error)` — exactly one leading
`metadata`, then tokens, then exactly one terminal event, nothing after. -/
def matchesGrammar : List StreamEvent → Bool
  | .metadata _ _ :: rest => tokensThenTerminal rest
  | _ => false

theorem tokensThenTerminal_append (fragments : List String) (t : StreamEvent)
    (ht : isTerminal t = true) :
    tokensThenTerminal (fragments.map .token ++ [t]) = true := by
  induction fragments with
  | nil => cases t <;> simp_all [isTerminal, tokensThenTerminal]
  | cons f r ih => simpa [tokensThenTerminal] using ih

/-- **C1, counterexample**: the spec's own retrieval-failure path (§4.8)
emits the single event `error` with no preceding `metadata`, so the session's
event sequence does not match the grammar `metadata, token*, (done|error)`
("exactly one metadata") at this concrete failing session. -/
theorem streamGrammar_counterexample :
    sessionEvents false [] [] ["tok"] none "IndexUnavailableError" =
        [.error "IndexUnavailableError"] ∧
      matchesGrammar
        (sessionEvents false [] [] ["tok"] none "IndexUnavailableError")
        = false := by
  exact ⟨rfl, rfl⟩

/-- **C1, amended**: for every query session, when retrieval succeeds the
emitted sequence matches `metadata, token*, (done|error)` exactly — one
leading `metadata`, then tokens, then one terminal event; when retrieval
fails the sequence is the single event `error` (no `metadata`); in both cases
exactly one terminal event ends the stream and no event follows it; and the
mock SSE stream of `handlers.ts` matches the grammar. -/
theorem streamOrdering_amended (sources : List String)
    (chunks : List ChunkResult) (fragments : List String)
    (midFail : Option ℕ) (errMsg : String) :
    matchesGrammar (sessionEvents true sources chunks fragments midFail errMsg)
        = true ∧
    sessionEvents false sources chunks fragments midFail errMsg
        = [.error errMsg] ∧
    (∀ ok : Bool, ∃ init lastEv,
        sessionEvents ok sources chunks fragments midFail errMsg
            = init ++ [lastEv] ∧
        isTerminal lastEv = true ∧ ∀ e ∈ init, isTerminal e = false) ∧
    matchesGrammar makeSseStream = true := by
  refine ⟨?_, rfl, ?_, by decide⟩
  · unfold sessionEvents
    rw [if_pos rfl]
    cases midFail with
    | none =>
        show tokensThenTerminal (fragments.map .token ++ [.done]) = true
        exact tokensThenTerminal_append fragments .done rfl
    | some n =>
        show tokensThenTerminal
          ((fragments.take n).map .token ++ [.error errMsg]) = true
        exact tokensThenTerminal_append (fragments.take n) (.error errMsg) rfl
  · intro ok
    cases ok with
    | false => exact ⟨[], .error errMsg, rfl, rfl, by simp⟩
    | true =>
        cases midFail with
        | none =>
            refine ⟨.metadata sources chunks :: fragments.map .token, .done,
              by simp [sessionEvents], rfl, ?_⟩
            intro e he
            rcases List.mem_cons.mp he with h | h
            · rw [h]; rfl
            · obtain ⟨f, _, hf⟩ := List.mem_map.mp h
              rw [← hf]; rfl
        | some n =>
            refine ⟨.metadata sources chunks :: (fragments.take n).map .token,
              .error errMsg, by simp [sessionEvents], rfl, ?_⟩
            intro e he
            rcases List.mem_cons.mp he with h | h
            · rw [h]; rfl
            · obtain ⟨f, _, hf⟩ := List.mem_map.mp h
              rw [← hf]; rfl

/-! ## `stripFrontmatter` (`frontend/src/utils.ts` / `App.tsx`)

The source is `content.replace(/^---\n[\s\S]*?\n---\n/, "").trimStart()`.
The anchored lazy regex matches a prefix `"---\n" ++ X ++ "\n---\n"` with `X`
minimal, i.e. the closing delimiter is the *first* occurrence of the five
characters `"\n---\n"` at or after position 4; when it matches, that prefix
is removed; in every case leading whitespace is then stripped.  Note the
closing `---` line must be followed by a newline, and the opener's own
newline cannot also serve as the closer's leading newline. -/

/-- First index `j` at which `pat` occurs in `l` (as `(l.drop j).take
pat.length = pat`), scanning left to right. -/
def findSub (pat : List Char) : List Char → Option ℕ
  | [] => if ([] : List Char).take pat.length = pat then some 0 else none
  | c :: t =>
      if (c :: t).take pat.length = pat then some 0
      else (findSub pat t).map (· + 1)

theorem findSub_some {pat : List Char} :
    ∀ {l j}, findSub pat l = some j →
      (l.drop j).take pat.length = pat ∧
        ∀ i < j, (l.drop i).take pat.length ≠ pat := by
  intro l
  induction l with
  | nil =>
      intro j h
      unfold findSub at h
      by_cases hp : ([] : List Char).take pat.length = pat
      · rw [if_pos hp] at h
        cases h
        exact ⟨hp, fun i hi => absurd hi (Nat.not_lt_zero i)⟩
      · rw [if_neg hp] at h; cases h
  | cons c t ih =>
      intro j h
      unfold findSub at h
      by_cases hp : (c :: t).take pat.length = pat
      · rw [if_pos hp] at h
        cases h
        exact ⟨hp, fun i hi => absurd hi (Nat.not_lt_zero i)⟩
      · rw [if_neg hp] at h
        cases hft : findSub pat t with
        | none => rw [hft] at h; cases h
        | some j' =>
            rw [hft] at h
            cases h
            obtain ⟨h1, h2⟩ := ih hft
            refine ⟨h1, ?_⟩
            intro i hi
            cases i with
            | zero => simpa using hp
            | succ i' =>
                show ((c :: t).drop (i' + 1)).take pat.length ≠ pat
                rw [List.drop_succ_cons]
                have hi2 : i' + 1 < j' + 1 := hi
                exact h2 i' (by omega)

theorem findSub_none {pat : List Char} :
    ∀ {l}, findSub pat l = none → ∀ i, (l.drop i).take pat.length ≠ pat := by
  intro l
  induction l with
  | nil =>
      intro h i
      unfold findSub at h
      by_cases hp : ([] : List Char).take pat.length = pat
      · rw [if_pos hp] at h; cases h
      · rw [if_neg hp] at h
        simpa [List.drop_nil] using hp
  | cons c t ih =>
      intro h i
      unfold findSub at h
      by_cases hp : (c :: t).take pat.length = pat
      · rw [if_pos hp] at h; cases h
      · rw [if_neg hp] at h
        cases hft : findSub pat t with
        | none =>
            cases i with
            | zero => simpa using hp
            | succ i' =>
                rw [List.drop_succ_cons]
                exact ih hft i'
        | some j' => rw [hft] at h; cases h

/-- The frontmatter opener `"---\n"`. -/
def OPEN : List Char := ['-', '-', '-', '\n']

/-- The frontmatter closer `"\n---\n"`. -/
def CLOSE : List Char := ['\n', '-', '-', '-', '\n']

/-- `stripFrontmatter` from `utils.ts`/`App.tsx` at the character level:
remove the lazily-matched anchored frontmatter block if the regex matches,
then strip leading whitespace. -/
def jsStripFrontmatterL (l : List Char) : List Char :=
  if l.take 4 = OPEN then
    match findSub CLOSE (l.drop 4) with
    | some j => jsTrimStartL (l.drop (4 + j + 5))
    | none => jsTrimStartL l
  else jsTrimStartL l

/-- `stripFrontmatter` from `utils.ts`/`App.tsx`. -/
def stripFrontmatter (s : String) : String := ⟨jsStripFrontmatterL s.data⟩

/-- A line `"---"`. -/
def DASH3 : List Char := ['-', '-', '-']

/-- Split on newline characters (the list of lines; never empty). -/
def splitNl : List Char → List (List Char)
  | [] => [[]]
  | c :: t =>
      let r := splitNl t
      if c = '\n' then [] :: r
      else (c :: r.headD []) :: r.tail

/-- Re-join lines with newline characters (left inverse of `splitNl`). -/
def joinNl : List (List Char) → List Char
  | [] => []
  | [x] => x
  | x :: y :: r => x ++ '\n' :: joinNl (y :: r)

/-- The behaviour the claim describes, from its words: if the string begins
with the line `"---"` and contains a later line `"---"`, remove everything up
to and including the first such closing delimiter line and strip leading
whitespace from the remainder; otherwise only strip leading whitespace. -/
def claimedStripL (l : List Char) : List Char :=
  match splitNl l with
  | [] => jsTrimStartL l
  | first :: rest =>
      if first = DASH3 ∧ DASH3 ∈ rest then
        jsTrimStartL
          (joinNl (rest.drop (rest.findIdx (fun x => x = DASH3) + 1)))
      else jsTrimStartL l

/-- `String`-level wrapper for `claimedStripL`. -/
def claimedStrip (s : String) : String := ⟨claimedStripL s.data⟩

/-- **C8, counterexample**: `"---\na\n---"` begins with the line `---` and
contains a later line `---`, so the claim says the frontmatter is removed
(leaving `""`); but the regex requires a newline *after* the closing `---`,
so `stripFrontmatter` returns the string unchanged. -/
theorem stripFrontmatter_counterexample :
    stripFrontmatter "---\na\n---" = "---\na\n---" ∧
      claimedStrip "---\na\n---" = "" ∧
      splitNl ("---\na\n---").data = [DASH3, ['a'], DASH3] ∧
      ("---\na\n---" : String) ≠ "" := by decide

/-- **C8, amended**: `stripFrontmatter` is total and pure; if the string
begins with `"---\n"` and the five characters `"\n---\n"` occur at some
position at or after the opener (first occurrence at offset `j` from
position 4), everything up to and including that closing `"---\n"` is removed
and the remainder's leading whitespace stripped; otherwise (no `"---\n"`
opener, or no later `"\n---\n"` closer) the string is returned with only
leading whitespace removed. -/
theorem stripFrontmatter_spec (s : String) :
    (s.data.take 4 ≠ OPEN → stripFrontmatter s = jsTrimStart s) ∧
    ((∀ i, (s.data.drop (4 + i)).take 5 ≠ CLOSE) →
        stripFrontmatter s = jsTrimStart s) ∧
    (∀ j, s.data.take 4 = OPEN → (s.data.drop (4 + j)).take 5 = CLOSE →
      (∀ i < j, (s.data.drop (4 + i)).take 5 ≠ CLOSE) →
      (stripFrontmatter s).data = jsTrimStartL (s.data.drop (4 + j + 5))) := by
  have hdd : ∀ k : ℕ, (s.data.drop 4).drop k = s.data.drop (4 + k) := by
    intro k
    rw [List.drop_drop]
  refine ⟨?_, ?_, ?_⟩
  · intro h
    simp [stripFrontmatter, jsStripFrontmatterL, h, jsTrimStart]
  · intro h
    by_cases ho : s.data.take 4 = OPEN
    · cases hfs : findSub CLOSE (s.data.drop 4) with
      | none =>
          simp [stripFrontmatter, jsStripFrontmatterL, ho, hfs, jsTrimStart]
      | some j =>
          exfalso
          have h1 := (findSub_some hfs).1
          rw [hdd j] at h1
          exact h j h1
    · simp [stripFrontmatter, jsStripFrontmatterL, ho, jsTrimStart]
  · intro j ho hocc hmin
    cases hfs : findSub CLOSE (s.data.drop 4) with
    | none =>
        exfalso
        have := findSub_none hfs j
        rw [hdd j] at this
        exact this hocc
    | some j' =>
        obtain ⟨h1, h2⟩ := findSub_some hfs
        rw [hdd j'] at h1
        have hjj : j' = j := by
          rcases lt_trichotomy j' j with hlt | heq | hgt
          · exact absurd h1 (hmin j' hlt)
          · exact heq
          · have := h2 j hgt
            rw [hdd j] at this
            exact absurd hocc this
        subst hjj
        simp [stripFrontmatter, jsStripFrontmatterL, ho, hfs]

/-- Witness for `stripFrontmatter_spec`: a concrete frontmatter block whose
closer (`"\n---\n"`) first occurs at offset 8 from position 4. -/
theorem stripFrontmatter_spec_witness :
    (stripFrontmatter "---\ntitle: x\n---\nBody text").data
      = jsTrimStartL (("---\ntitle: x\n---\nBody text").data.drop (4 + 8 + 5)) :=
  (stripFrontmatter_spec "---\ntitle: x\n---\nBody text").2.2 8
    (by decide) (by decide) (by decide)

/-! ## Citation-marker rewriting in the answer card (`App.tsx`)

The answer is rendered through
`answer.replace(/\(Source:\s*([^)]+\.md)\)/g, (_m, f) => "(Source: [" + f + "](#doc/" + f + "))")`
and a markdown `a`-component that turns hrefs matching `/^#doc\/(.+\.md)$/`
into a button navigating to that document and leaves any other href as a
plain anchor.  The global regex replace is modelled as a left-to-right scan:
a match starts at `"(Source:"`; since neither `\s*` nor `[^)]+` can cross a
`')'`, the matched `')'` is the first one after the marker, the characters
`C` before it must end in `".md"` with at least one captured character before
it, and the greedy-with-backtracking `\s*` consumes
`min(whitespace prefix of C, |C| − 4)` characters, the capture being the
rest of `C`. -/

/-- The literal `"(Source:"`. -/
def SRCpat : List Char := ['(', 'S', 'o', 'u', 'r', 'c', 'e', ':']

/-- Length of the leading whitespace run. -/
def wsPrefixLen (l : List Char) : ℕ := (l.takeWhile isJsWhitespace).length

/-- The replacement text `"(Source: [" ++ f ++ "](#doc/" ++ f ++ "))"`. -/
def citeRepl (f : List Char) : List Char :=
  ['(', 'S', 'o', 'u', 'r', 'c', 'e', ':', ' ', '['] ++ f ++
    [']', '(', '#', 'd', 'o', 'c', '/'] ++ f ++ [')', ')']

/-- One fuel unit per scan step; fuel = input length suffices since every
step consumes at least one character. -/
def replaceSourcesAux : ℕ → List Char → List Char
  | 0, l => l
  | _ + 1, [] => []
  | fuel + 1, c :: t =>
      if (c :: t).take 8 = SRCpat then
        match findSub [')'] ((c :: t).drop 8) with
        | none => c :: replaceSourcesAux fuel t
        | some m =>
            if 4 ≤ (((c :: t).drop 8).take m).length ∧
                (((c :: t).drop 8).take m).drop
                  ((((c :: t).drop 8).take m).length - 3) = ['.', 'm', 'd'] then
              citeRepl ((((c :: t).drop 8).take m).drop
                  (min (wsPrefixLen (((c :: t).drop 8).take m))
                    ((((c :: t).drop 8).take m).length - 4))) ++
                replaceSourcesAux fuel (((c :: t).drop 8).drop (m + 1))
            else c :: replaceSourcesAux fuel t
      else c :: replaceSourcesAux fuel t

/-- The citation-marker rewrite of the answer, character level. -/
def replaceSourcesL (l : List Char) : List Char :=
  replaceSourcesAux l.length l

/-- The citation-marker rewrite of the answer (`answer.replace(...)`). -/
def replaceSources (s : String) : String := ⟨replaceSourcesL s.data⟩

/-- What the markdown `a`-component renders for a link. -/
inductive RenderedLink where
  | docButton (filename : String)
  | plainAnchor (href : Option String)
deriving DecidableEq, Repr

/-- The `a`-component of the answer's `ReactMarkdown`: an href matching
`/^#doc\/(.+\.md)$/` renders as a button navigating to the captured filename;
anything else (including a missing href) renders as a plain anchor. -/
def renderAnswerLink (href : Option String) : RenderedLink :=
  match href with
  | none => .plainAnchor none
  | some h =>
      if h.data.take 5 = ['#', 'd', 'o', 'c', '/'] ∧
          4 ≤ (h.data.drop 5).length ∧
          (h.data.drop 5).drop ((h.data.drop 5).length - 3) = ['.', 'm', 'd'] ∧
          '\n' ∉ h.data.drop 5 then
        .docButton ⟨h.data.drop 5⟩
      else .plainAnchor (some h)

theorem replaceSourcesAux_nil (f : ℕ) : replaceSourcesAux f [] = [] := by
  cases f <;> rfl

theorem findSub_marker : ∀ (w z : List Char), ')' ∉ w →
    findSub [')'] (w ++ ')' :: z) = some w.length := by
  intro w
  induction w with
  | nil => intro z _; rfl
  | cons c t ih =>
      intro z hw
      have hc : c ≠ ')' := fun h => hw (h ▸ List.mem_cons_self c t)
      show findSub [')'] (c :: (t ++ ')' :: z)) = some (t.length + 1)
      unfold findSub
      rw [if_neg (by simpa using hc),
        ih z (fun h => hw (List.mem_cons_of_mem c h))]
      rfl

theorem take8_cons_ne (c : Char) (t : List Char) (hc : c ≠ '(') :
    (c :: t).take 8 ≠ SRCpat := by
  intro h
  rw [List.take_succ_cons] at h
  exact hc (List.cons.injEq _ _ _ _ ▸ h).1

theorem takeWhile_nil_of_head (name : List Char)
    (h : isJsWhitespace (name.headD ' ') = false) :
    name.takeWhile isJsWhitespace = [] := by
  cases name with
  | nil => rfl
  | cons c t =>
      simp only [List.headD_cons] at h
      simp [List.takeWhile_cons, h]

theorem replaceSourcesAux_fuel_aux : ∀ n l f₁ f₂, l.length ≤ n →
    l.length ≤ f₁ → l.length ≤ f₂ →
    replaceSourcesAux f₁ l = replaceSourcesAux f₂ l := by
  intro n
  induction n using Nat.strong_induction_on with
  | _ n ih =>
      intro l f₁ f₂ hn h1 h2
      cases l with
      | nil => rw [replaceSourcesAux_nil, replaceSourcesAux_nil]
      | cons c t =>
          simp only [List.length_cons] at hn h1 h2
          obtain ⟨g₁, rfl⟩ : ∃ g, f₁ = g + 1 := ⟨f₁ - 1, by omega⟩
          obtain ⟨g₂, rfl⟩ : ∃ g, f₂ = g + 1 := ⟨f₂ - 1, by omega⟩
          have hrec_t : replaceSourcesAux g₁ t = replaceSourcesAux g₂ t := by
            have hlt : t.length < n := by omega
            exact ih t.length hlt t g₁ g₂ le_rfl (by omega) (by omega)
          by_cases h8 : (c :: t).take 8 = SRCpat
          · cases hm : findSub [')'] ((c :: t).drop 8) with
            | none =>
                simp only [replaceSourcesAux, if_pos h8, hm]
                rw [hrec_t]
            | some m =>
                simp only [replaceSourcesAux, if_pos h8, hm]
                by_cases hcond : 4 ≤ (((c :: t).drop 8).take m).length ∧
                    (((c :: t).drop 8).take m).drop
                      ((((c :: t).drop 8).take m).length - 3) = ['.', 'm', 'd']
                · rw [if_pos hcond, if_pos hcond]
                  have hlen : (((c :: t).drop 8).drop (m + 1)).length ≤ t.length := by
                    simp only [List.length_drop, List.length_cons]
                    omega
                  have hrec : replaceSourcesAux g₁ (((c :: t).drop 8).drop (m + 1))
                      = replaceSourcesAux g₂ (((c :: t).drop 8).drop (m + 1)) := by
                    have hlt : t.length < n := by omega
                    exact ih t.length hlt _ g₁ g₂ hlen (by omega) (by omega)
                  rw [hrec]
                · rw [if_neg hcond, if_neg hcond, hrec_t]
          · simp only [replaceSourcesAux, if_neg h8]
            rw [hrec_t]

theorem replaceSourcesAux_fuel {l : List Char} {f : ℕ} (h : l.length ≤ f) :
    replaceSourcesAux f l = replaceSourcesL l :=
  replaceSourcesAux_fuel_aux l.length l f l.length le_rfl h le_rfl

theorem replaceSourcesAux_id : ∀ (l : List Char) f, l.length ≤ f →
    (∀ i, (l.drop i).take 8 ≠ SRCpat) → replaceSourcesAux f l = l := by
  intro l
  induction l with
  | nil => intro f _ _; exact replaceSourcesAux_nil f
  | cons c t ih =>
      intro f h1 hno
      simp only [List.length_cons] at h1
      obtain ⟨g, rfl⟩ : ∃ g, f = g + 1 := ⟨f - 1, by omega⟩
      have h8 : (c :: t).take 8 ≠ SRCpat := by simpa using hno 0
      simp only [replaceSourcesAux, if_neg h8]
      rw [ih g (by omega)
        (fun i => by have h := hno (i + 1); rwa [List.drop_succ_cons] at h)]

/-- One-step unfolding of the scanner (opaque fuel, so exactly one step). -/
theorem replaceSourcesAux_cons (g : ℕ) (c : Char) (t : List Char) :
    replaceSourcesAux (g + 1) (c :: t) =
      if (c :: t).take 8 = SRCpat then
        match findSub [')'] ((c :: t).drop 8) with
        | none => c :: replaceSourcesAux g t
        | some m =>
            if 4 ≤ (((c :: t).drop 8).take m).length ∧
                (((c :: t).drop 8).take m).drop
                  ((((c :: t).drop 8).take m).length - 3) = ['.', 'm', 'd'] then
              citeRepl ((((c :: t).drop 8).take m).drop
                  (min (wsPrefixLen (((c :: t).drop 8).take m))
                    ((((c :: t).drop 8).take m).length - 4))) ++
                replaceSourcesAux g (((c :: t).drop 8).drop (m + 1))
            else c :: replaceSourcesAux g t
      else c :: replaceSourcesAux g t := rfl

/-- The scan-step equation at a match: the matched `')'` is the first one
after `"(Source:"`, the characters before it are `' ' :: name`, and the
capture is `name` (the leading space going to `\s*`). -/
theorem replaceSources_citation : ∀ (pre : List Char), '(' ∉ pre →
    ∀ (name post : List Char), ')' ∉ name → 4 ≤ name.length →
    name.drop (name.length - 3) = ['.', 'm', 'd'] →
    isJsWhitespace (name.headD ' ') = false →
    replaceSourcesL (pre ++ SRCpat ++ ' ' :: name ++ ')' :: post)
      = pre ++ citeRepl name ++ replaceSourcesL post := by
  intro pre
  induction pre with
  | cons a pre' ih =>
      intro hpre name post h1 h2 h3 h4
      have ha : a ≠ '(' := fun h => hpre (h ▸ List.mem_cons_self a pre')
      have hpre' : '(' ∉ pre' := fun h => hpre (List.mem_cons_of_mem a h)
      have h8 := take8_cons_ne a
        (pre' ++ SRCpat ++ ' ' :: name ++ ')' :: post) ha
      show replaceSourcesAux
          ((a :: (pre' ++ SRCpat ++ ' ' :: name ++ ')' :: post)).length)
          (a :: (pre' ++ SRCpat ++ ' ' :: name ++ ')' :: post)) = _
      simp only [List.length_cons]
      rw [replaceSourcesAux_cons, if_neg h8,
        replaceSourcesAux_fuel le_rfl, ih hpre' name post h1 h2 h3 h4]
      simp
  | nil =>
      intro _ name post h1 h2 h3 h4
      simp only [List.nil_append]
      have hw : (')' : Char) ∉ ' ' :: name := by
        intro h
        rcases List.mem_cons.mp h with h | h
        · cases h
        · exact h1 h
      have hm : findSub [')'] (' ' :: (name ++ ')' :: post))
          = some (name.length + 1) := by
        have h := findSub_marker (' ' :: name) post hw
        simp only [List.cons_append, List.length_cons] at h
        exact h
      have hC : List.take (name.length + 1) (' ' :: (name ++ ')' :: post))
          = ' ' :: name := by
        have h := List.take_left (' ' :: name) (')' :: post)
        simp only [List.cons_append, List.length_cons] at h
        exact h
      have hR : List.drop (name.length + 1 + 1) (' ' :: (name ++ ')' :: post))
          = post := by
        have h := List.drop_left ((' ' :: name) ++ [')']) post
        rw [show ((' ' :: name) ++ [')']) ++ post
            = ' ' :: (name ++ ')' :: post) by simp] at h
        simp only [List.length_append, List.length_cons,
          List.length_nil] at h
        rw [show name.length + 1 + 1 = name.length + 1 + (0 + 1) by omega]
        exact h
      have hlen : (SRCpat ++ ' ' :: name ++ ')' :: post).length
          = (name.length + post.length + 9) + 1 := by
        simp [SRCpat]
        omega
      show replaceSourcesAux
          (SRCpat ++ ' ' :: name ++ ')' :: post).length
          (SRCpat ++ ' ' :: name ++ ')' :: post) = _
      rw [hlen]
      show replaceSourcesAux (name.length + post.length + 9 + 1)
          ('(' :: ('S' :: 'o' :: 'u' :: 'r' :: 'c' :: 'e' :: ':' ::
            (' ' :: (name ++ ')' :: post)))) = _
      have h8p : List.take 8 ('(' :: ('S' :: 'o' :: 'u' :: 'r' :: 'c' :: 'e'
          :: ':' :: (' ' :: (name ++ ')' :: post)))) = SRCpat := rfl
      have hd8 : List.drop 8 ('(' :: ('S' :: 'o' :: 'u' :: 'r' :: 'c' :: 'e'
          :: ':' :: (' ' :: (name ++ ')' :: post))))
          = ' ' :: (name ++ ')' :: post) := rfl
      rw [replaceSourcesAux_cons, if_pos h8p, hd8]
      simp only [hm]
      have hcond : 4 ≤ (List.take (name.length + 1)
            (' ' :: (name ++ ')' :: post))).length ∧
          List.drop ((List.take (name.length + 1)
              (' ' :: (name ++ ')' :: post))).length - 3)
            (List.take (name.length + 1) (' ' :: (name ++ ')' :: post)))
            = ['.', 'm', 'd'] := by
        rw [hC]
        simp only [List.length_cons]
        constructor
        · omega
        · rw [show name.length + 1 - 3 = (name.length - 3) + 1 by omega,
            List.drop_succ_cons]
          exact h3
      rw [if_pos hcond, hC]
      simp only [List.length_cons]
      have hws : wsPrefixLen (' ' :: name) = 1 := by
        unfold wsPrefixLen
        rw [List.takeWhile_cons]
        simp [isJsWhitespace, takeWhile_nil_of_head name h4]
      have hmin : min (wsPrefixLen (' ' :: name)) (name.length + 1 - 4)
          = 1 := by
        rw [hws]
        omega
      have hds : List.drop 1 (' ' :: name) = name := rfl
      rw [hmin, hds, hR, replaceSourcesAux_fuel (by omega)]

/-- **C10**: the rendered answer rewrites each citation marker
`(Source: <name>.md)` into `(Source: [<name>.md](#doc/<name>.md))` and the
markdown link component renders a `#doc/<name>.md` href as a button
navigating to that document: (i) answer text containing no `"(Source:"`
marker is left unchanged; (ii) every occurrence `"(Source: " ++ name ++ ")"`
(clean context: no `'('` before it, `name` a `')'`-free `.md` filename not
starting with whitespace) is rewritten to the markdown link, the scan
continuing on the rest; (iii) an href `#doc/<name>.md` renders as the
navigation button for `<name>.md`; (iv) any href not starting with `#doc/`
renders as a plain anchor. -/
theorem citation_rendering :
    (∀ s : String, (∀ i, (s.data.drop i).take 8 ≠ SRCpat) →
        replaceSources s = s) ∧
    (∀ pre name post : List Char, '(' ∉ pre → ')' ∉ name →
        4 ≤ name.length → name.drop (name.length - 3) = ['.', 'm', 'd'] →
        isJsWhitespace (name.headD ' ') = false →
        replaceSourcesL (pre ++ SRCpat ++ ' ' :: name ++ ')' :: post)
          = pre ++ citeRepl name ++ replaceSourcesL post) ∧
    (∀ name : String, 4 ≤ name.data.length →
        name.data.drop (name.data.length - 3) = ['.', 'm', 'd'] →
        '\n' ∉ name.data →
        renderAnswerLink (some ⟨['#', 'd', 'o', 'c', '/'] ++ name.data⟩)
          = .docButton name) ∧
    (∀ h : String, h.data.take 5 ≠ ['#', 'd', 'o', 'c', '/'] →
        renderAnswerLink (some h) = .plainAnchor (some h)) := by
  refine ⟨?_,
    fun pre name post hpre => replaceSources_citation pre hpre name post,
    ?_, ?_⟩
  · intro s hno
    show (⟨replaceSourcesL s.data⟩ : String) = s
    rw [replaceSourcesL, replaceSourcesAux_id s.data s.data.length le_rfl hno]
  · intro name h1 h2 h3
    simp only [renderAnswerLink]
    rw [show (String.mk (['#', 'd', 'o', 'c', '/'] ++ name.data)).data.drop 5
        = name.data from rfl,
      show (String.mk (['#', 'd', 'o', 'c', '/'] ++ name.data)).data.take 5
        = ['#', 'd', 'o', 'c', '/'] from rfl]
    rw [if_pos ⟨rfl, h1, h2, h3⟩]
  · intro h hne
    simp only [renderAnswerLink]
    rw [if_neg (fun hc => hne hc.1)]

/-- Witness for `citation_rendering` at the test's concrete inputs:
`"See (Source: guide.md) for details."` and the href `#doc/guide.md`. -/
theorem citation_rendering_witness :
    replaceSourcesL ("See ".data ++ SRCpat ++ ' ' :: "guide.md".data
        ++ ')' :: " for details.".data)
      = "See ".data ++ citeRepl "guide.md".data
        ++ replaceSourcesL " for details.".data ∧
    renderAnswerLink (some ⟨['#', 'd', 'o', 'c', '/'] ++ "guide.md".data⟩)
      = .docButton "guide.md" ∧
    replaceSources "See (Source: guide.md) for details."
      = "See (Source: [guide.md](#doc/guide.md)) for details." := by
  refine ⟨?_, ?_, by decide⟩
  · exact citation_rendering.2.1 "See ".data "guide.md".data
      " for details.".data (by decide) (by decide) (by decide) (by decide)
      (by decide)
  · exact citation_rendering.2.2.1 "guide.md" (by decide) (by decide)
      (by decide)
